import Mathlib

/-!
Verification of the stochastic variational inference (SVI) engine described by
the repository's specification, together with the notebook-level functions
(`geometric`, `nonlinear_function`, `intractable_speedometer`) that the
notebooks define themselves.

The notebooks delegate every engine behaviour (named sampling, conditioning,
the parameter store, the ELBO loss, `Predictive`) to an external library, so
the engine components below are modelled from the specification's component
contracts (each such definition says so in its doc comment).  Values and
tensors are embedded as rationals (`ℚ`), scalar per site; randomness is an
explicit deterministic draw stream indexed by a running counter, so every
definition is executable.
-/

namespace SVISpec

/-- Modelled from the spec: the error taxonomy of §7 (the engine itself is not
in the repository's source).  `SignatureMismatchError` is listed there as
optionally checked and is not needed by any claim. -/
inductive Err where
  | DuplicateSiteError
  | MissingGuideSiteError
  | UnknownSiteError
  | UnknownParameterError
deriving DecidableEq

/-- Modelled from the spec: a constraint is a pure bijection pair
(`constrain`/`unconstrain`, §4.2); the bijection law itself is not needed by
any claim, so the two maps are kept as plain functions. -/
structure Constraint where
  constrain : ℚ → ℚ
  unconstrain : ℚ → ℚ

/-- Modelled from the spec: one entry of the parameter store (§3): the raw
(unconstrained, gradient-tracked) tensor together with the constraint fixed at
first registration. -/
structure PEntry where
  raw : ℚ
  cstr : Constraint

/-- Modelled from the spec: the process-wide parameter store (§3, §4.2), a
mapping from parameter name to its entry. -/
abbrev ParameterStore := List (String × PEntry)

/-- Lookup of a parameter entry by name (first match). -/
def findEntry : ParameterStore → String → Option PEntry
  | [], _ => none
  | (m, e) :: rest, n => if m = n then some e else findEntry rest n

/-- Modelled from the spec: `record_param(name, init_value, constraint)`
(§4.2).  A first call stores `raw = unconstrain(init_value)` and returns
`constrain(raw)`; a subsequent call with the same name returns the constrained
view of the currently stored raw tensor, ignoring the new `init_value` and
constraint (§3 fixes the constraint at first registration). -/
def record_param (st : ParameterStore) (n : String) (init : ℚ) (c : Constraint) :
    ParameterStore × ℚ :=
  match findEntry st n with
  | some e => (st, e.cstr.constrain e.raw)
  | none => ((n, ⟨c.unconstrain init, c⟩) :: st, c.constrain (c.unconstrain init))

/-- Modelled from the spec: `get(name)` of §4.2, a read without side effects
failing with `UnknownParameterError` when absent. -/
def getParam (st : ParameterStore) (n : String) : Except Err ℚ :=
  match findEntry st n with
  | some e => .ok (e.cstr.constrain e.raw)
  | none => .error .UnknownParameterError

/-- Modelled from the spec: the optimizer's in-place update of one raw tensor
(§4.2 "the optimizer is a non-owning borrower that updates them in place"),
abstracted as an arbitrary update function on the raw value. -/
def updateRaw (st : ParameterStore) (n : String) (f : ℚ → ℚ) : ParameterStore :=
  st.map (fun p => if p.1 = n then (p.1, ⟨f p.2.raw, p.2.cstr⟩) else p)

/-- Modelled from the spec: the distribution capability interface of §6:
`sample`, `rsample` (as deterministic functions of a draw-stream index),
`log_prob`, and the `has_rsample` flag. -/
structure Dist where
  draw : Nat → ℚ
  rdraw : Nat → ℚ
  logProb : ℚ → ℚ
  has_rsample : Bool

/-- Modelled from the spec: the `fn` type tag of a site (§3): `sample` or
`param`. -/
inductive SiteTag where
  | sample
  | param
deriving DecidableEq

/-- Modelled from the spec: a `Site` (§3): name, distribution (absent for
param sites), value, observed flag and tag. -/
structure Site where
  name : String
  dist : Option Dist
  value : ℚ
  is_observed : Bool
  tag : SiteTag

/-- Modelled from the spec: a `Trace` (§3), the ordered record of sites of one
execution. -/
abbrev Trace := List Site

/-- The list of site names of a trace, in execution order. -/
def names (tr : Trace) : List String := tr.map Site.name

/-- The value recorded in a trace under a given site name (first match). -/
def lookupVal : Trace → String → Option ℚ
  | [], _ => none
  | s :: rest, n => if s.name = n then some s.value else lookupVal rest n

/-- Log-density contribution of one site: `log_prob(value)` of its
distribution for sample sites, `0` for param sites (which carry no
distribution). -/
def siteLogProb (s : Site) : ℚ :=
  match s.dist with
  | some d => d.logProb s.value
  | none => 0

/-- Sum of the per-site log-densities of a trace. -/
def logSum (tr : Trace) : ℚ := (tr.map siteLogProb).sum

/-- Modelled from the spec: a model/guide program (§4.1).  A program either
returns a scalar or issues a named `record_sample` effect (with an optional
observed value, the `obs=` path) or a named `record_param` effect, and
continues with the resulting value. -/
inductive Prog where
  | ret (v : ℚ)
  | sample (name : String) (d : Dist) (obs : Option ℚ) (k : ℚ → Prog)
  | param (name : String) (init : ℚ) (c : Constraint) (k : ℚ → Prog)

/-- Result of one successful recorded execution: the trace, the updated
parameter store, the advanced draw-stream counter and the program's return
value. -/
structure RunOut where
  tr : Trace
  store : ParameterStore
  rng : Nat
  ret : ℚ

/-- Modelled from the spec: the execution-trace recorder `run` (§4.1).  A
duplicate site name fails fast with `DuplicateSiteError`; an observed sample
records the observation and echoes it back; a latent sample draws via the
reparameterized path exactly when `has_rsample`, consuming one draw index; a
param effect goes through the parameter store. -/
def run : Prog → ParameterStore → Nat → Trace → Except Err RunOut
  | .ret v, st, g, tr => .ok ⟨tr, st, g, v⟩
  | .sample n d o k, st, g, tr =>
    if n ∈ names tr then .error .DuplicateSiteError
    else
      match o with
      | some v => run (k v) st g (tr ++ [⟨n, some d, v, true, .sample⟩])
      | none =>
        let v := if d.has_rsample then d.rdraw g else d.draw g
        run (k v) st (g + 1) (tr ++ [⟨n, some d, v, false, .sample⟩])
  | .param n i c k, st, g, tr =>
    if n ∈ names tr then .error .DuplicateSiteError
    else
      let p := record_param st n i c
      run (k p.2) p.1 g (tr ++ [⟨n, none, p.2, false, .param⟩])

/-- Modelled from the spec: the model run inside the ELBO estimator (§4.4,
step 2): every latent sample site is pinned to the value recorded for that
name in the guide trace (so no draw is made), observed sites keep their
observed values, and a latent site whose name is absent from the guide trace
fails with `MissingGuideSiteError`. -/
def runPinned (gtr : Trace) : Prog → ParameterStore → Nat → Trace → Except Err RunOut
  | .ret v, st, g, tr => .ok ⟨tr, st, g, v⟩
  | .sample n d o k, st, g, tr =>
    if n ∈ names tr then .error .DuplicateSiteError
    else
      match o with
      | some v => runPinned gtr (k v) st g (tr ++ [⟨n, some d, v, true, .sample⟩])
      | none =>
        match lookupVal gtr n with
        | some v => runPinned gtr (k v) st g (tr ++ [⟨n, some d, v, false, .sample⟩])
        | none => .error .MissingGuideSiteError
  | .param n i c k, st, g, tr =>
    if n ∈ names tr then .error .DuplicateSiteError
    else
      let p := record_param st n i c
      runPinned gtr (k p.2) p.1 g (tr ++ [⟨n, none, p.2, false, .param⟩])

/-- Modelled from the spec: the single-sample ELBO estimator (§4.4): run the
guide, rerun the model with the guide's latents pinned, and return
`loss = -(Σ log p_model - Σ log q_guide)` together with the guide trace. -/
def estimate (model guide : Prog) (st : ParameterStore) (g : Nat) :
    Except Err (ℚ × Trace) :=
  match run guide st g [] with
  | .error e => .error e
  | .ok o1 =>
    match runPinned o1.tr model o1.store o1.rng [] with
    | .error e => .error e
    | .ok o2 => .ok (-(logSum o2.tr - logSum o1.tr), o1.tr)

/-- An observation mapping for `condition`: site name to observed value. -/
abbrev ObsMap := List (String × ℚ)

/-- Lookup in an observation mapping (first match wins). -/
def obsLookup : ObsMap → String → Option ℚ
  | [], _ => none
  | (m, v) :: rest, n => if m = n then some v else obsLookup rest n

/-- Modelled from the spec: the conditioning transform (§4.3).  The
conditioned program issues exactly the same effects, but a sample site whose
name is a key of the observation mapping receives that value as its observed
value; return-value construction and param effects are untouched. -/
def condition (obs : ObsMap) : Prog → Prog
  | .ret v => .ret v
  | .sample n d o k =>
    .sample n d
      (match obsLookup obs n with
       | some v => some v
       | none => o)
      (fun v => condition obs (k v))
  | .param n i c k => .param n i c (fun v => condition obs (k v))

/-- Modelled from the spec: the `num_samples` independent runs of the model
performed by the predictive sampler (§4.6), threading the store and the draw
counter so distinct runs consume disjoint segments of the draw stream. -/
def runMany (model : Prog) : Nat → ParameterStore → Nat →
    Except Err (List Trace × ParameterStore × Nat)
  | 0, st, g => .ok ([], st, g)
  | Nat.succ k, st, g =>
    match run model st g [] with
    | .error e => .error e
    | .ok o =>
      match runMany model k o.store o.rng with
      | .error e => .error e
      | .ok (trs, st', g') => .ok (o.tr :: trs, st', g')

/-- Order-preserving insertion of a name into a list of names (no-op when
already present). -/
def insertName (l : List String) (n : String) : List String :=
  if n ∈ l then l else l ++ [n]

/-- Every site name observed across a list of traces, in order of first
appearance. -/
def unionNames (trs : List Trace) : List String :=
  trs.foldl (fun acc tr => (names tr).foldl insertName acc) []

/-- The ordered sequence of values recorded under one site name across a list
of traces; a run in which the name does not occur contributes nothing. -/
def collectVals (n : String) (trs : List Trace) : List ℚ :=
  (trs.map (fun tr => (tr.filter (fun s => s.name == n)).map Site.value)).flatten

/-- Modelled from the spec: the posterior-predictive sampler (§4.6,
`Predictive(model, num_samples, return_sites)`): run the model `num_samples`
times and return, for each returned site name, the ordered sequence of its
recorded values across the runs; `return_sites = none` returns every name
observed across runs, otherwise exactly the requested names, failing with
`UnknownSiteError` when a requested name appears in no run's trace. -/
def predict (model : Prog) (numSamples : Nat) (rs : Option (List String))
    (st : ParameterStore) (g : Nat) : Except Err (List (String × List ℚ)) :=
  match runMany model numSamples st g with
  | .error e => .error e
  | .ok (trs, _, _) =>
    match rs with
    | none => .ok ((unionNames trs).map (fun n => (n, collectVals n trs)))
    | some req =>
      if req.all (fun n => trs.any (fun tr => (names tr).contains n)) then
        .ok (req.map (fun n => (n, collectVals n trs)))
      else .error .UnknownSiteError

/-- Relational specification of a successful pinned model run: it follows
§4.4 step 2 with the validity conditions stated explicitly as hypotheses —
every recorded name is fresh in the in-flight trace (no duplicate names) and
every latent sample name is present in the guide trace. -/
inductive PExec (gtr : Trace) : Prog → ParameterStore → Nat → Trace → RunOut → Prop where
  | ret (v : ℚ) (st : ParameterStore) (g : Nat) (tr : Trace) :
      PExec gtr (.ret v) st g tr ⟨tr, st, g, v⟩
  | obs (n : String) (d : Dist) (v : ℚ) (k : ℚ → Prog) (st : ParameterStore)
      (g : Nat) (tr : Trace) (out : RunOut) :
      n ∉ names tr →
      PExec gtr (k v) st g (tr ++ [⟨n, some d, v, true, .sample⟩]) out →
      PExec gtr (.sample n d (some v) k) st g tr out
  | latent (n : String) (d : Dist) (v : ℚ) (k : ℚ → Prog) (st : ParameterStore)
      (g : Nat) (tr : Trace) (out : RunOut) :
      n ∉ names tr →
      lookupVal gtr n = some v →
      PExec gtr (k v) st g (tr ++ [⟨n, some d, v, false, .sample⟩]) out →
      PExec gtr (.sample n d none k) st g tr out
  | par (n : String) (i : ℚ) (c : Constraint) (k : ℚ → Prog)
      (st : ParameterStore) (g : Nat) (tr : Trace) (out : RunOut) :
      n ∉ names tr →
      PExec gtr (k (record_param st n i c).2) (record_param st n i c).1 g
        (tr ++ [⟨n, none, (record_param st n i c).2, false, .param⟩]) out →
      PExec gtr (.param n i c k) st g tr out

/-- A program that never supplies an observed value itself (all its sample
sites are latent); base models handed to `condition` in the notebooks'
`pyro.condition` style are of this shape. -/
inductive ObsFree : Prog → Prop where
  | ret (v : ℚ) : ObsFree (.ret v)
  | sample (n : String) (d : Dist) (k : ℚ → Prog) :
      (∀ v, ObsFree (k v)) → ObsFree (.sample n d none k)
  | param (n : String) (i : ℚ) (c : Constraint) (k : ℚ → Prog) :
      (∀ v, ObsFree (k v)) → ObsFree (.param n i c k)

/-- The notebooks' `geometric(p, t=None)` (01-Pyro-introduction): draw a
Bernoulli at the synthesized site name `"x_" ++ repr t`; on outcome 1 return
0, otherwise recurse at depth `t + 1` and add 1.  The Bernoulli outcomes are
an explicit stream `draws` indexed by recursion depth (the model makes exactly
one draw per depth) and `fuel` bounds the recursion so the embedding is total;
`none` stands for an execution that has not terminated within `fuel` draws.
The returned list is the trace's site names in draw order. -/
def geometric (draws : Nat → Bool) : Nat → Nat → Option (List String × Nat)
  | 0, _ => none
  | Nat.succ f, t =>
    if draws t then some (["x_" ++ Nat.repr t], 0)
    else
      match geometric draws f (t + 1) with
      | none => none
      | some (ns, r) => some (("x_" ++ Nat.repr t) :: ns, r + 1)

/-- The notebooks' `nonlinear_function` (02-Pyro-inference) on one tensor
element: `mask * (0.01*t**2 + t) + (1 - mask) * abs(0.02*t**2 + 0.8*t)` with
`mask = (t >= 10)`, the decimal constants taken as exact rationals. -/
def nonlinear_function_elt (t : ℚ) : ℚ :=
  let mask : ℚ := if 10 ≤ t then 1 else 0
  mask * (1 / 100 * t ^ 2 + t) + (1 - mask) * |1 / 50 * t ^ 2 + 4 / 5 * t|

/-- The notebooks' `nonlinear_function` applied elementwise to a tensor,
embedded as a list of rationals. -/
def nonlinear_function (xs : List ℚ) : List ℚ := xs.map nonlinear_function_elt

/-- The location argument handed to the `measurement` Normal inside the
notebooks' `intractable_speedometer` for one element of the sampled `speed`
tensor: `nonlinear_function(speed)`. -/
def intractable_measurement_loc (speed : ℚ) : ℚ := nonlinear_function_elt speed

/-- Decimal digit value of a digit character; a left inverse of
`Nat.digitChar` on digits below 10, used to prove decimal site names
injective. -/
def charVal (c : Char) : Nat :=
  if c = '0' then 0 else if c = '1' then 1 else if c = '2' then 2 else
  if c = '3' then 3 else if c = '4' then 4 else if c = '5' then 5 else
  if c = '6' then 6 else if c = '7' then 7 else if c = '8' then 8 else
  if c = '9' then 9 else 10

/-! Concrete instances used by witnesses and counterexamples. -/

/-- The identity constraint (the spec's default `unconstrained`). -/
def idC : Constraint := ⟨fun x => x, fun x => x⟩

/-- A second, different constraint (absolute-value view), used to show that a
re-registration's constraint argument is ignored. -/
def absC : Constraint := ⟨fun x => |x|, fun x => x⟩

/-- A concrete reparameterizable distribution: every draw is `5`, log-density
`x ↦ x`. -/
def dUnit : Dist := ⟨fun _ => 5, fun _ => 5, fun x => x, true⟩

/-- A concrete distribution for a model's latent site: log-density `x ↦ 2*x`. -/
def dPrior : Dist := ⟨fun _ => 0, fun _ => 0, fun x => 2 * x, true⟩

/-- A concrete distribution for a model's observed site: log-density
`x ↦ x - 40`. -/
def dMeas : Dist := ⟨fun _ => 0, fun _ => 0, fun x => x - 40, true⟩

/-- A non-reparameterizable distribution whose draw is `1` exactly at stream
index 0; drives the run-dependent control flow of `mVar`. -/
def dCoin : Dist :=
  ⟨fun g => if g = 0 then 1 else 0, fun g => if g = 0 then 1 else 0, fun _ => 0, false⟩

/-- A concrete distribution every draw of which is `7`. -/
def dSeven : Dist := ⟨fun _ => 7, fun _ => 7, fun _ => 0, false⟩

/-- A one-latent-site guide: sample `"z"`. -/
def guideG : Prog := .sample "z" dUnit none .ret

/-- A two-site model: latent `"z"`, then `"m"` observed at `40`. -/
def modelM : Prog :=
  .sample "z" dPrior none (fun z => .sample "m" dMeas (some 40) (fun _ => .ret z))

/-- A one-latent-site base model: sample `"a"`. -/
def mA : Prog := .sample "a" dUnit none .ret

/-- A base model that itself observes its only site `"a"` at `3` (the `obs=`
style of the notebooks). -/
def mObs : Prog := .sample "a" dUnit (some 3) .ret

/-- A model with run-dependent trace structure: site `"b"` is sampled only
when the draw at site `"a"` is `1`. -/
def mVar : Prog :=
  .sample "a" dCoin none
    (fun v => if v = 1 then .sample "b" dSeven none (fun _ => .ret 0) else .ret 0)

/-- A concrete Bernoulli outcome stream: success exactly at depth 2. -/
def drawsW : Nat → Bool := fun t => t == 2

/-- The trace of one run of `mA`: its single site `"a"` with the drawn value
`5`. -/
def trA : Trace := [⟨"a", some dUnit, 5, false, .sample⟩]

/-- Claim C4 as literally stated: a successful run of a conditioned model
marks observed exactly the sites whose names are keys of the observation
mapping. -/
def claimC4 : Prop :=
  ∀ (obs : ObsMap) (m : Prog) (st : ParameterStore) (g : Nat) (out : RunOut),
    run (condition obs m) st g [] = .ok out →
    ∀ s ∈ out.tr, s.is_observed = true ↔ s.name ∈ obs.map Prod.fst

/-- Claim C8 as literally stated: every site name returned by `predict` comes
with exactly `num_samples` values. -/
def claimC8 : Prop :=
  ∀ (model : Prog) (numSamples : Nat) (rs : Option (List String))
    (st : ParameterStore) (g : Nat) (out : List (String × List ℚ)),
    1 ≤ numSamples → predict model numSamples rs st g = .ok out →
    ∀ p ∈ out, p.2.length = numSamples

/-! Helper lemmas about the parameter store. -/

theorem findEntry_updateRaw (st : ParameterStore) (n : String) (f : ℚ → ℚ) :
    findEntry (updateRaw st n f) n = (findEntry st n).map (fun e => ⟨f e.raw, e.cstr⟩) := by
  induction st with
  | nil => rfl
  | cons p rest ih =>
    obtain ⟨m, e⟩ := p
    by_cases h : m = n
    · subst h
      show findEntry ((if m = m then (m, ⟨f e.raw, e.cstr⟩) else (m, e)) ::
        updateRaw rest m f) m = _
      rw [if_pos rfl]
      simp [findEntry]
    · show findEntry ((if m = n then (m, ⟨f e.raw, e.cstr⟩) else (m, e)) ::
        updateRaw rest n f) n = _
      rw [if_neg h]
      simp only [findEntry, if_neg h]
      exact ih

/-- C2: after a first `record_param` registration of a name, every subsequent
call with that name — any new initial value, any new constraint — returns the
constrained view of the raw tensor currently stored under the entry fixed by
the first registration, and leaves the store unchanged; the second
registration's initial value and constraint are ignored (second conjunct),
and after an in-place optimizer update of the raw tensor the next call
returns the constrained view of the updated raw tensor, so a training loop
keeps optimizing the same underlying tensor rather than resetting it (third
conjunct). -/
theorem C2_record_param_first_registration_wins :
    (∀ (st : ParameterStore) (n : String) (e : PEntry) (v2 : ℚ) (c' : Constraint),
      findEntry st n = some e →
      record_param st n v2 c' = (st, e.cstr.constrain e.raw)) ∧
    (∀ (st : ParameterStore) (n : String) (v1 : ℚ) (c : Constraint)
       (v2 : ℚ) (c' : Constraint),
      findEntry st n = none →
      record_param (record_param st n v1 c).1 n v2 c' =
        ((record_param st n v1 c).1, c.constrain (c.unconstrain v1))) ∧
    (∀ (st : ParameterStore) (n : String) (e : PEntry) (f : ℚ → ℚ)
       (v2 : ℚ) (c' : Constraint),
      findEntry st n = some e →
      record_param (updateRaw st n f) n v2 c' =
        (updateRaw st n f, e.cstr.constrain (f e.raw))) := by
  refine ⟨fun st n e v2 c' h => by simp [record_param, h], ?_, ?_⟩
  · intro st n v1 c v2 c' h
    simp [record_param, h, findEntry]
  · intro st n e f v2 c' h
    simp [record_param, findEntry_updateRaw, h]

/-- Witness for C2 at concrete inputs: a store holding `"scale" ↦ raw 1` under
the identity constraint, re-registered with a different initial value and the
absolute-value constraint, and the same after an optimizer update of the raw
tensor. -/
theorem C2_witness :
    record_param [("scale", ⟨1, idC⟩)] "scale" 9 absC =
      ([("scale", ⟨1, idC⟩)], idC.constrain 1) ∧
    record_param (updateRaw [("scale", ⟨1, idC⟩)] "scale" (fun x => x - 3))
        "scale" 9 absC =
      (updateRaw [("scale", ⟨1, idC⟩)] "scale" (fun x => x - 3),
        idC.constrain ((fun x : ℚ => x - 3) 1)) :=
  ⟨C2_record_param_first_registration_wins.1 [("scale", ⟨1, idC⟩)] "scale" ⟨1, idC⟩ 9 absC rfl,
   C2_record_param_first_registration_wins.2.2 [("scale", ⟨1, idC⟩)] "scale" ⟨1, idC⟩
     (fun x => x - 3) 9 absC rfl⟩

/-- C10: every element of `nonlinear_function` of a tensor is nonnegative —
elements with `t ≥ 10` map to `0.01*t^2 + t`, which is positive there, and
elements with `t < 10` map to `|0.02*t^2 + 0.8*t| ≥ 0` — hence the location
handed to the `measurement` Normal inside `intractable_speedometer` is always
nonnegative. -/
theorem C10_nonlinear_function_nonneg :
    (∀ (xs : List ℚ), ∀ y ∈ nonlinear_function xs, 0 ≤ y) ∧
    (∀ t : ℚ, 10 ≤ t →
      nonlinear_function_elt t = 1 / 100 * t ^ 2 + t ∧ 0 < nonlinear_function_elt t) ∧
    (∀ t : ℚ, t < 10 →
      nonlinear_function_elt t = |1 / 50 * t ^ 2 + 4 / 5 * t|) ∧
    (∀ speed : ℚ, 0 ≤ intractable_measurement_loc speed) := by
  have hge : ∀ t : ℚ, 10 ≤ t →
      nonlinear_function_elt t = 1 / 100 * t ^ 2 + t ∧ 0 < nonlinear_function_elt t := by
    intro t ht
    have he : nonlinear_function_elt t = 1 / 100 * t ^ 2 + t := by
      simp [nonlinear_function_elt, ht]
    refine ⟨he, ?_⟩
    rw [he]
    nlinarith [sq_nonneg t]
  have hlt : ∀ t : ℚ, t < 10 →
      nonlinear_function_elt t = |1 / 50 * t ^ 2 + 4 / 5 * t| := by
    intro t ht
    simp [nonlinear_function_elt, not_le.mpr ht]
  have helt : ∀ t : ℚ, 0 ≤ nonlinear_function_elt t := by
    intro t
    by_cases ht : 10 ≤ t
    · exact le_of_lt (hge t ht).2
    · rw [hlt t (not_le.mp ht)]
      exact abs_nonneg _
  refine ⟨?_, hge, hlt, fun speed => helt speed⟩
  intro xs y hy
  rcases List.mem_map.mp hy with ⟨t, _, rfl⟩
  exact helt t

/-- Witness for C10 at concrete inputs: the element `3` of the tensor `[3]`
maps to a nonnegative value, and the element `12 ≥ 10` to a positive one. -/
theorem C10_witness :
    0 ≤ nonlinear_function_elt 3 ∧ 0 < nonlinear_function_elt 12 :=
  ⟨C10_nonlinear_function_nonneg.1 [3] (nonlinear_function_elt 3)
      (by simp [nonlinear_function]),
   (C10_nonlinear_function_nonneg.2.1 12 (by norm_num)).2⟩

/-! Helper lemmas about observation mappings and conditioning. -/

theorem obsLookup_append (o1 o2 : ObsMap) (n : String) :
    obsLookup (o1 ++ o2) n =
      match obsLookup o1 n with
      | some v => some v
      | none => obsLookup o2 n := by
  induction o1 with
  | nil => rfl
  | cons p rest ih =>
    by_cases h : p.1 = n
    · simp [obsLookup, h]
    · simpa [obsLookup, h] using ih

/-- C3: conditioning an already-conditioned model merges the observation
mappings with the most recently applied conditioning taking precedence on
name collisions (first conjunct: composition equals conditioning with the
merged mapping, later-applied map first), and in particular double
conditioning of site `"a"` first to `1` and then to `2` pins `"a"` to the
effective observed value `2` (second conjunct syntactically, third conjunct
on the recorded trace of a concrete one-site model). -/
theorem C3_condition_composes :
    (∀ (obs2 obs1 : ObsMap) (p : Prog),
      condition obs2 (condition obs1 p) = condition (obs2 ++ obs1) p) ∧
    (∀ (d : Dist) (k : ℚ → Prog),
      condition [("a", (2 : ℚ))] (condition [("a", 1)] (.sample "a" d none k)) =
        .sample "a" d (some 2)
          (fun v => condition [("a", (2 : ℚ))] (condition [("a", 1)] (k v)))) ∧
    (∀ (st : ParameterStore) (g : Nat),
      run (condition [("a", (2 : ℚ))] (condition [("a", 1)] mA)) st g [] =
        .ok ⟨[⟨"a", some dUnit, 2, true, .sample⟩], st, g, 2⟩) := by
  refine ⟨?_, ?_, ?_⟩
  · intro obs2 obs1 p
    induction p with
    | ret v => rfl
    | sample n d o k ih =>
      simp only [condition]
      congr 1
      · rw [obsLookup_append]
        cases obsLookup obs2 n <;> cases obsLookup obs1 n <;> rfl
      · funext v
        exact ih v
    | param n i c k ih =>
      simp only [condition]
      congr 1
      funext v
      exact ih v
  · intro d k
    simp [condition, obsLookup]
  · intro st g
    rfl

theorem names_concat_nodup (tr : Trace) (s : Site) (hn : (names tr).Nodup)
    (hm : s.name ∉ names tr) : (names (tr ++ [s])).Nodup := by
  have he : names (tr ++ [s]) = names tr ++ [s.name] := by simp [names]
  rw [he]
  simp only [List.nodup_append, List.nodup_cons, List.not_mem_nil, not_false_iff,
    List.nodup_nil, and_true, true_and]
  refine ⟨hn, ?_⟩
  intro a ha
  simp only [List.mem_singleton]
  intro hc
  exact hm (hc ▸ ha)

/-- C6: invoking the recorder's sample effect — or its param effect — with a
name already present in the in-flight trace deterministically fails with
`DuplicateSiteError` (first two conjuncts, for every continuation and
observation status), and consequently every completed trace has pairwise
distinct site names (third conjunct). -/
theorem C6_duplicate_site_error :
    (∀ (n : String) (d : Dist) (o : Option ℚ) (k : ℚ → Prog)
       (st : ParameterStore) (g : Nat) (tr : Trace),
      n ∈ names tr → run (.sample n d o k) st g tr = .error .DuplicateSiteError) ∧
    (∀ (n : String) (i : ℚ) (c : Constraint) (k : ℚ → Prog)
       (st : ParameterStore) (g : Nat) (tr : Trace),
      n ∈ names tr → run (.param n i c k) st g tr = .error .DuplicateSiteError) ∧
    (∀ (p : Prog) (st : ParameterStore) (g : Nat) (out : RunOut),
      run p st g [] = .ok out → (names out.tr).Nodup) := by
  have aux : ∀ (p : Prog) (st : ParameterStore) (g : Nat) (tr : Trace) (out : RunOut),
      run p st g tr = .ok out → (names tr).Nodup → (names out.tr).Nodup := by
    intro p
    induction p with
    | ret v =>
      intro st g tr out h hn
      simp only [run, Except.ok.injEq] at h
      rw [← h]
      exact hn
    | sample n d o k ih =>
      intro st g tr out h hn
      by_cases hm : n ∈ names tr
      · cases o <;> simp [run, hm] at h
      · cases o with
        | some v =>
          have h' : run (k v) st g (tr ++ [⟨n, some d, v, true, .sample⟩]) = .ok out := by
            simpa [run, hm] using h
          exact ih v st g _ out h' (names_concat_nodup tr _ hn hm)
        | none =>
          have h' : run (k (if d.has_rsample then d.rdraw g else d.draw g)) st (g + 1)
              (tr ++ [⟨n, some d, if d.has_rsample then d.rdraw g else d.draw g,
                false, .sample⟩]) = .ok out := by
            simpa [run, hm] using h
          exact ih _ st (g + 1) _ out h' (names_concat_nodup tr _ hn hm)
    | param n i c k ih =>
      intro st g tr out h hn
      by_cases hm : n ∈ names tr
      · simp [run, hm] at h
      · have h' : run (k (record_param st n i c).2) (record_param st n i c).1 g
            (tr ++ [⟨n, none, (record_param st n i c).2, false, .param⟩]) = .ok out := by
          simpa [run, hm] using h
        exact ih _ _ g _ out h' (names_concat_nodup tr _ hn hm)
  refine ⟨fun n d o k st g tr h => by cases o <;> simp [run, h],
          fun n i c k st g tr h => by simp [run, h],
          fun p st g out h => aux p st g [] out h (by simp [names])⟩

/-- Witness for C6 at concrete inputs: re-using the name `"a"` over a trace
already holding a site `"a"` fails with `DuplicateSiteError`, and the
completed trace of the concrete guide has pairwise distinct names. -/
theorem C6_witness :
    run (.sample "a" dUnit none .ret) [] 0 [⟨"a", some dUnit, 5, false, .sample⟩] =
      .error .DuplicateSiteError ∧
    run (.param "a" 1 idC .ret) [] 0 [⟨"a", some dUnit, 5, false, .sample⟩] =
      .error .DuplicateSiteError ∧
    (names [⟨"z", some dUnit, 5, false, .sample⟩]).Nodup :=
  ⟨C6_duplicate_site_error.1 "a" dUnit none .ret [] 0 _ (by simp [names]),
   C6_duplicate_site_error.2.1 "a" 1 idC .ret [] 0 _ (by simp [names]),
   C6_duplicate_site_error.2.2 guideG [] 0 ⟨[⟨"z", some dUnit, 5, false, .sample⟩], [], 1, 5⟩ rfl⟩

theorem obsLookup_eq_none (obs : ObsMap) (n : String) :
    obsLookup obs n = none ↔ n ∉ obs.map Prod.fst := by
  induction obs with
  | nil => simp [obsLookup]
  | cons p rest ih =>
    obtain ⟨m, v⟩ := p
    by_cases h : m = n
    · subst h
      simp [obsLookup]
    · simp only [obsLookup, if_neg h]
      rw [ih]
      simp only [List.map_cons, List.mem_cons, not_or]
      exact ⟨fun hn => ⟨fun hc => h hc.symm, hn⟩, fun hn => hn.2⟩

theorem obsLookup_some_mem {obs : ObsMap} {n : String} {v : ℚ}
    (h : obsLookup obs n = some v) : n ∈ obs.map Prod.fst := by
  by_contra hc
  rw [← obsLookup_eq_none obs n] at hc
  rw [h] at hc
  cases hc

theorem run_condition_marking (obs : ObsMap) :
    ∀ (m : Prog), ObsFree m →
    ∀ (st : ParameterStore) (g : Nat) (tr : Trace) (out : RunOut),
    run (condition obs m) st g tr = .ok out →
    (∀ s ∈ tr, (s.tag = .sample → (s.is_observed = true ↔ s.name ∈ obs.map Prod.fst)) ∧
       (s.tag = .param → s.is_observed = false)) →
    ∀ s ∈ out.tr,
      (s.tag = .sample → (s.is_observed = true ↔ s.name ∈ obs.map Prod.fst)) ∧
      (s.tag = .param → s.is_observed = false) := by
  intro m hm
  induction hm with
  | ret v =>
    intro st g tr out h hQ
    simp only [condition, run, Except.ok.injEq] at h
    rw [← h]
    exact hQ
  | sample n d k hk ih =>
    intro st g tr out h hQ
    simp only [condition] at h
    by_cases hmem : n ∈ names tr
    · cases ho : obsLookup obs n <;> rw [ho] at h <;> simp [run, hmem] at h
    · cases ho : obsLookup obs n with
      | some v =>
        rw [ho] at h
        have h' : run (condition obs (k v)) st g
            (tr ++ [⟨n, some d, v, true, .sample⟩]) = .ok out := by
          simpa [run, hmem] using h
        refine ih v st g _ out h' ?_
        intro s hs
        rcases List.mem_append.mp hs with hs | hs
        · exact hQ s hs
        · rw [List.mem_singleton.mp hs]
          refine ⟨fun _ => iff_of_true rfl (obsLookup_some_mem ho), fun htag => ?_⟩
          cases htag
      | none =>
        rw [ho] at h
        have h' : run (condition obs
              (k (if d.has_rsample then d.rdraw g else d.draw g))) st (g + 1)
            (tr ++ [⟨n, some d, if d.has_rsample then d.rdraw g else d.draw g,
              false, .sample⟩]) = .ok out := by
          simpa [run, hmem] using h
        refine ih _ st (g + 1) _ out h' ?_
        intro s hs
        rcases List.mem_append.mp hs with hs | hs
        · exact hQ s hs
        · rw [List.mem_singleton.mp hs]
          refine ⟨fun _ => iff_of_false (by simp) ((obsLookup_eq_none obs n).mp ho),
            fun htag => ?_⟩
          cases htag
  | param n i c k hk ih =>
    intro st g tr out h hQ
    simp only [condition] at h
    by_cases hmem : n ∈ names tr
    · simp [run, hmem] at h
    · have h' : run (condition obs (k (record_param st n i c).2))
          (record_param st n i c).1 g
          (tr ++ [⟨n, none, (record_param st n i c).2, false, .param⟩]) = .ok out := by
        simpa [run, hmem] using h
      refine ih _ _ g _ out h' ?_
      intro s hs
      rcases List.mem_append.mp hs with hs | hs
      · exact hQ s hs
      · rw [List.mem_singleton.mp hs]
        refine ⟨fun htag => ?_, fun _ => rfl⟩
        cases htag

/-- Counterexample to C4 as stated: for the base model `mObs`, which itself
observes its site `"a"` at `3` (the notebooks' `obs=` style), conditioning
with the empty observation mapping still yields a trace whose site `"a"` is
observed even though `"a"` is not a key of the mapping — so a conditioned
model does not mark observed *exactly* the sites named by the mapping's
keys. -/
theorem C4_counterexample : ¬ claimC4 := by
  intro h
  have h2 := h [] mObs [] 0 ⟨[⟨"a", some dUnit, 3, true, .sample⟩], [], 0, 3⟩ rfl
    ⟨"a", some dUnit, 3, true, .sample⟩ (by simp)
  have h3 := h2.mp rfl
  simp at h3

/-- C4 (amended): `condition(m, obs)` is a new program (the base model value
is untouched — the embedding is pure), and provided the base model observes
no site of its own, a successful run of the conditioned model marks observed
exactly the sample sites whose names are keys of `obs` (param sites are never
observed); the underlying model's returned scalar is passed through
unchanged by the transform. -/
theorem C4_condition_marks_keys_observed (obs : ObsMap) (m : Prog) (hm : ObsFree m)
    (st : ParameterStore) (g : Nat) (out : RunOut)
    (h : run (condition obs m) st g [] = .ok out) :
    (∀ s ∈ out.tr,
      (s.tag = .sample → (s.is_observed = true ↔ s.name ∈ obs.map Prod.fst)) ∧
      (s.tag = .param → s.is_observed = false)) ∧
    (∀ v : ℚ, condition obs (.ret v) = .ret v) :=
  ⟨run_condition_marking obs m hm st g [] out h (by simp), fun _ => rfl⟩

/-- Witness for the amended C4 at concrete inputs: conditioning the
observation-free one-site model `mA` on `[("a", 2)]` marks its single site
observed, as `"a"` is the mapping's key. -/
theorem C4_witness :
    (∀ s ∈ [(⟨"a", some dUnit, 2, true, .sample⟩ : Site)],
      (s.tag = .sample →
        (s.is_observed = true ↔ s.name ∈ ([("a", (2 : ℚ))] : ObsMap).map Prod.fst)) ∧
      (s.tag = .param → s.is_observed = false)) ∧
    (∀ v : ℚ, condition [("a", (2 : ℚ))] (.ret v) = .ret v) :=
  C4_condition_marks_keys_observed [("a", 2)] mA
    (ObsFree.sample "a" dUnit Prog.ret (fun v => ObsFree.ret v)) [] 0
    ⟨[⟨"a", some dUnit, 2, true, .sample⟩], [], 0, 2⟩ rfl

/-! Helper lemmas showing decimal site names are injective, needed for the
pairwise distinctness of the `geometric` model's synthesized names. -/

theorem toDigitsCore_eq_digits :
    ∀ (f n : Nat) (l : List Char), 0 < n → n < f →
      Nat.toDigitsCore 10 f n l = ((Nat.digits 10 n).map Nat.digitChar).reverse ++ l := by
  intro f
  induction f with
  | zero =>
    intro n l hn hf
    omega
  | succ f ih =>
    intro n l hn hf
    have h10 : (1 : Nat) < 10 := by norm_num
    by_cases hd : n / 10 = 0
    · have hn10 : n < 10 := (Nat.div_eq_zero_iff (by norm_num)).mp hd
      rw [Nat.digits_def' h10 hn, hd]
      simp only [Nat.toDigitsCore, hd, if_true, Nat.digits_zero, List.map_cons,
        List.map_nil, List.reverse_cons, List.reverse_nil, List.nil_append,
        List.cons_append, List.nil_append]
    · have h1 : 0 < n / 10 := Nat.pos_of_ne_zero hd
      have h2 : n / 10 < f := by
        have hlt := Nat.div_lt_self hn (by norm_num : 1 < 10)
        omega
      simp only [Nat.toDigitsCore, hd, if_false]
      rw [ih (n / 10) (Nat.digitChar (n % 10) :: l) h1 h2, Nat.digits_def' h10 hn]
      simp [List.append_assoc]

theorem repr_eq_digits (n : Nat) (hn : 0 < n) :
    Nat.repr n = (((Nat.digits 10 n).map Nat.digitChar).reverse).asString := by
  show (Nat.toDigits 10 n).asString = _
  rw [Nat.toDigits, toDigitsCore_eq_digits (n + 1) n [] hn (Nat.lt_succ_self n)]
  simp

theorem charVal_digitChar : ∀ d : Nat, d < 10 → charVal (Nat.digitChar d) = d := by
  decide

theorem map_digitChar_injective {L1 L2 : List Nat} (h1 : ∀ d ∈ L1, d < 10)
    (h2 : ∀ d ∈ L2, d < 10) (h : L1.map Nat.digitChar = L2.map Nat.digitChar) :
    L1 = L2 := by
  have e : ∀ (L : List Nat), (∀ d ∈ L, d < 10) → L.map (charVal ∘ Nat.digitChar) = L := by
    intro L hL
    have e1 : L.map (charVal ∘ Nat.digitChar) = L.map id :=
      List.map_congr_left (fun d hd => charVal_digitChar d (hL d hd))
    rwa [List.map_id] at e1
  have h5 := congrArg (List.map charVal) h
  rw [List.map_map, List.map_map, e L1 h1, e L2 h2] at h5
  exact h5

theorem nat_repr_injective : Function.Injective Nat.repr := by
  have hzp : ∀ b : Nat, 0 < b → Nat.repr 0 ≠ Nat.repr b := by
    intro b hb hne
    rw [repr_eq_digits b hb] at hne
    have hdata : (['0'] : List Char) = ((Nat.digits 10 b).map Nat.digitChar).reverse :=
      congrArg String.data hne
    have hrev := congrArg List.reverse hdata
    rw [List.reverse_reverse] at hrev
    have hsing : Nat.digits 10 b = [0] := by
      refine map_digitChar_injective (fun d hd => Nat.digits_lt_base (by norm_num) hd)
        (by simp) ?_
      rw [← hrev]
      rfl
    have hofd := Nat.ofDigits_digits 10 b
    rw [hsing] at hofd
    simp [Nat.ofDigits] at hofd
    omega
  intro a b h
  rcases Nat.eq_zero_or_pos a with rfl | ha
  · rcases Nat.eq_zero_or_pos b with rfl | hb
    · rfl
    · exact absurd h (hzp b hb)
  · rcases Nat.eq_zero_or_pos b with rfl | hb
    · exact absurd h.symm (hzp a ha)
    · rw [repr_eq_digits a ha, repr_eq_digits b hb] at h
      have h2 : ((Nat.digits 10 a).map Nat.digitChar).reverse =
          ((Nat.digits 10 b).map Nat.digitChar).reverse := congrArg String.data h
      have h3 := List.reverse_injective h2
      have h4 : Nat.digits 10 a = Nat.digits 10 b :=
        map_digitChar_injective (fun d hd => Nat.digits_lt_base (by norm_num) hd)
          (fun d hd => Nat.digits_lt_base (by norm_num) hd) h3
      exact Nat.digits.injective 10 h4

theorem xname_injective : Function.Injective (fun t : Nat => "x_" ++ Nat.repr t) := by
  intro a b h
  apply nat_repr_injective
  apply String.ext
  have h2 := congrArg String.data h
  simp only [String.data_append] at h2
  exact List.append_cancel_left h2

theorem geometric_spec (draws : Nat → Bool) :
    ∀ (fuel t : Nat) (ns : List String) (r : Nat),
      geometric draws fuel t = some (ns, r) →
      ns = (List.range (r + 1)).map (fun d => "x_" ++ Nat.repr (t + d)) ∧
      draws (t + r) = true ∧ ∀ d < r, draws (t + d) = false := by
  intro fuel
  induction fuel with
  | zero =>
    intro t ns r h
    cases h
  | succ f ih =>
    intro t ns r h
    by_cases hd : draws t
    · simp only [geometric, hd, if_true, Option.some.injEq, Prod.mk.injEq] at h
      obtain ⟨hns, hr⟩ := h
      subst hr
      refine ⟨by simpa using hns.symm, by simpa using hd, fun d hd0 => absurd hd0 (by omega)⟩
    · cases hrec : geometric draws f (t + 1) with
      | none => simp [geometric, hd, hrec] at h
      | some p =>
        obtain ⟨ns', r'⟩ := p
        simp [geometric, hd, hrec] at h
        obtain ⟨hns, hr⟩ := h
        obtain ⟨ihns, ihdraw, ihbefore⟩ := ih (t + 1) ns' r' hrec
        subst hr
        subst hns
        refine ⟨?_, ?_, ?_⟩
        · rw [List.range_succ_eq_map, List.map_cons, List.map_map]
          refine congrArg (List.cons ("x_" ++ Nat.repr t)) ?_
          rw [ihns]
          refine List.map_congr_left ?_
          intro d _
          show "x_" ++ Nat.repr (t + 1 + d) = "x_" ++ Nat.repr (t + (d + 1))
          rw [show t + 1 + d = t + (d + 1) by omega]
        · have harith : t + (r' + 1) = t + 1 + r' := by omega
          rw [harith]
          exact ihdraw
        · intro d hdlt
          cases d with
          | zero => simpa using hd
          | succ d' =>
            have : t + (d' + 1) = t + 1 + d' := by omega
            rw [this]
            exact ihbefore d' (by omega)

/-- C9: for every terminating execution of `geometric` started at depth 0,
the draw made at recursion depth `d` is recorded under the synthesized name
`"x_" ++ repr d` (the trace's names are exactly `x_0 … x_r` in order), those
names are pairwise distinct, and the returned value `r` is the number of
draws equal to 0 before the first draw equal to 1 (the first success is at
depth `r` and all earlier draws fail). -/
theorem C9_geometric_site_names (draws : Nat → Bool) (fuel : Nat)
    (ns : List String) (r : Nat) (h : geometric draws fuel 0 = some (ns, r)) :
    ns = (List.range (r + 1)).map (fun d => "x_" ++ Nat.repr d) ∧
    ns.Nodup ∧ draws r = true ∧ ∀ d < r, draws d = false := by
  obtain ⟨hns, hdraw, hbefore⟩ := geometric_spec draws fuel 0 ns r h
  have hns0 : ns = (List.range (r + 1)).map (fun d => "x_" ++ Nat.repr d) := by
    rw [hns]
    exact List.map_congr_left (fun d _ => by rw [Nat.zero_add])
  refine ⟨hns0, ?_, by simpa using hdraw, fun d hd => by simpa using hbefore d hd⟩
  rw [hns0]
  exact (List.nodup_range (r + 1)).map xname_injective

/-- Witness for C9 at concrete inputs: the outcome stream succeeding first at
depth 2 terminates with the trace names `x_0, x_1, x_2`, pairwise distinct,
returning 2, with the success draw at depth 2 and a failure draw before it. -/
theorem C9_witness :
    ["x_0", "x_1", "x_2"] =
      (List.range (2 + 1)).map (fun d => "x_" ++ Nat.repr d) ∧
    (["x_0", "x_1", "x_2"] : List String).Nodup ∧
    drawsW 2 = true ∧ drawsW 0 = false := by
  obtain ⟨h1, h2, h3, h4⟩ :=
    C9_geometric_site_names drawsW 5 ["x_0", "x_1", "x_2"] 2 (by decide)
  exact ⟨h1, h2, h3, h4 0 (by norm_num)⟩

/-! Helper lemma: a successful pinned run takes every latent sample value
from the guide trace. -/

theorem runPinned_pins (gtr : Trace) :
    ∀ (p : Prog) (st : ParameterStore) (g : Nat) (tr : Trace) (out : RunOut),
      runPinned gtr p st g tr = .ok out →
      (∀ s ∈ tr, s.tag = .sample → s.is_observed = false →
        lookupVal gtr s.name = some s.value) →
      ∀ s ∈ out.tr, s.tag = .sample → s.is_observed = false →
        lookupVal gtr s.name = some s.value := by
  intro p
  induction p with
  | ret v =>
    intro st g tr out h hQ
    simp only [runPinned, Except.ok.injEq] at h
    rw [← h]
    exact hQ
  | sample n d o k ih =>
    intro st g tr out h hQ
    by_cases hmem : n ∈ names tr
    · cases o with
      | some v =>
        simp only [runPinned] at h
        rw [if_pos hmem] at h
        exact Except.noConfusion h
      | none =>
        simp only [runPinned] at h
        rw [if_pos hmem] at h
        exact Except.noConfusion h
    · cases o with
      | some v =>
        have h' : runPinned gtr (k v) st g
            (tr ++ [⟨n, some d, v, true, .sample⟩]) = .ok out := by
          simp only [runPinned] at h
          rw [if_neg hmem] at h
          exact h
        refine ih v st g _ out h' ?_
        intro s hs
        rcases List.mem_append.mp hs with hs | hs
        · exact hQ s hs
        · rw [List.mem_singleton.mp hs]
          intro _ hobs
          cases hobs
      | none =>
        cases hv : lookupVal gtr n with
        | none =>
          simp only [runPinned] at h
          rw [if_neg hmem, hv] at h
          exact Except.noConfusion h
        | some v =>
          have h' : runPinned gtr (k v) st g
              (tr ++ [⟨n, some d, v, false, .sample⟩]) = .ok out := by
            simp only [runPinned] at h
            rw [if_neg hmem, hv] at h
            exact h
          refine ih v st g _ out h' ?_
          intro s hs
          rcases List.mem_append.mp hs with hs | hs
          · exact hQ s hs
          · rw [List.mem_singleton.mp hs]
            intro _ _
            exact hv
  | param n i c k ih =>
    intro st g tr out h hQ
    by_cases hmem : n ∈ names tr
    · simp only [runPinned] at h
      rw [if_pos hmem] at h
      exact Except.noConfusion h
    · have h' : runPinned gtr (k (record_param st n i c).2) (record_param st n i c).1 g
          (tr ++ [⟨n, none, (record_param st n i c).2, false, .param⟩]) = .ok out := by
        simp only [runPinned] at h
        rw [if_neg hmem] at h
        exact h
      refine ih _ _ g _ out h' ?_
      intro s hs
      rcases List.mem_append.mp hs with hs | hs
      · exact hQ s hs
      · rw [List.mem_singleton.mp hs]
        intro htag
        cases htag

/-- C1: one call of the ELBO estimator first runs the guide (hypothesis
`h1`, producing the guide trace `o1.tr`), then runs the model with every
latent sample site pinned to the value drawn for it in the guide trace while
externally observed sites keep their observed values (hypothesis `h2`
together with the second conjunct), and returns the loss equal to the
negation of (sum over all model-trace sites of `log p_model(value)` minus
sum over all guide-trace sites of `log q_guide(value)`) — the single-sample
Monte-Carlo ELBO estimate. -/
theorem C1_estimate_single_sample_elbo (model guide : Prog) (st : ParameterStore)
    (g : Nat) (o1 o2 : RunOut)
    (h1 : run guide st g [] = .ok o1)
    (h2 : runPinned o1.tr model o1.store o1.rng [] = .ok o2) :
    estimate model guide st g = .ok (-(logSum o2.tr - logSum o1.tr), o1.tr) ∧
    (∀ s ∈ o2.tr, s.tag = .sample → s.is_observed = false →
      lookupVal o1.tr s.name = some s.value) := by
  constructor
  · simp [estimate, h1, h2]
  · exact runPinned_pins o1.tr model o1.store o1.rng [] o2 h2 (by simp)

/-- Witness for C1 at concrete inputs: for the concrete model `modelM` and
guide `guideG`, the estimator returns the negated difference of the two
trace log-density sums alongside the guide trace. -/
theorem C1_witness :
    estimate modelM guideG [] 0 =
      .ok (-(logSum [⟨"z", some dPrior, 5, false, .sample⟩,
            ⟨"m", some dMeas, 40, true, .sample⟩] -
          logSum [⟨"z", some dUnit, 5, false, .sample⟩]),
        [⟨"z", some dUnit, 5, false, .sample⟩]) :=
  (C1_estimate_single_sample_elbo modelM guideG [] 0
    ⟨[⟨"z", some dUnit, 5, false, .sample⟩], [], 1, 5⟩
    ⟨[⟨"z", some dPrior, 5, false, .sample⟩,
      ⟨"m", some dMeas, 40, true, .sample⟩], [], 1, 5⟩
    rfl rfl).1

/-! Helper lemmas for the guide-coverage claim. -/

theorem pexec_runPinned (gtr : Trace) (p : Prog) (st : ParameterStore) (g : Nat)
    (tr : Trace) (out : RunOut) (h : PExec gtr p st g tr out) :
    runPinned gtr p st g tr = .ok out := by
  induction h with
  | ret v st g tr => rfl
  | obs n d v k st g tr out hn _ ih =>
    simp only [runPinned]
    rw [if_neg hn]
    exact ih
  | latent n d v k st g tr out hn hv _ ih =>
    simp only [runPinned]
    rw [if_neg hn, hv]
    exact ih
  | par n i c k st g tr out hn _ ih =>
    simp only [runPinned]
    rw [if_neg hn]
    exact ih

theorem lookupVal_some_mem :
    ∀ (tr : Trace) (n : String) (v : ℚ), lookupVal tr n = some v → n ∈ names tr := by
  intro tr
  induction tr with
  | nil =>
    intro n v h
    cases h
  | cons s rest ih =>
    intro n v h
    by_cases hs : s.name = n
    · simp [names, hs]
    · simp only [lookupVal, if_neg hs] at h
      exact List.mem_cons.mpr (Or.inr (ih n v h))

/-- C7: if the estimator's model run reaches a latent sample site whose name
has no site in the guide trace, it fails with `MissingGuideSiteError` (first
conjunct, for every continuation and state); consequently every successfully
pinned model trace contains only latent sample sites whose names occur in
the guide trace (second conjunct); and conversely, on valid inputs — no
duplicate names and every latent model site name present in the guide trace,
as captured by a `PExec` derivation for the model against the guide trace —
`estimate` returns a (finite, rational) scalar loss together with the guide
trace (third conjunct). -/
theorem C7_missing_guide_site :
    (∀ (gtr : Trace) (n : String) (d : Dist) (k : ℚ → Prog)
       (st : ParameterStore) (g : Nat) (tr : Trace),
      n ∉ names tr → lookupVal gtr n = none →
      runPinned gtr (.sample n d none k) st g tr = .error .MissingGuideSiteError) ∧
    (∀ (gtr : Trace) (p : Prog) (st : ParameterStore) (g : Nat) (out : RunOut),
      runPinned gtr p st g [] = .ok out →
      ∀ s ∈ out.tr, s.tag = .sample → s.is_observed = false → s.name ∈ names gtr) ∧
    (∀ (model guide : Prog) (st : ParameterStore) (g : Nat) (o1 out : RunOut),
      run guide st g [] = .ok o1 →
      PExec o1.tr model o1.store o1.rng [] out →
      estimate model guide st g = .ok (-(logSum out.tr - logSum o1.tr), o1.tr)) := by
  refine ⟨?_, ?_, ?_⟩
  · intro gtr n d k st g tr hn hv
    simp only [runPinned]
    rw [if_neg hn, hv]
  · intro gtr p st g out h s hs htag hobs
    exact lookupVal_some_mem gtr s.name s.value
      (runPinned_pins gtr p st g [] out h (by simp) s hs htag hobs)
  · intro model guide st g o1 out h1 hp
    have hr := pexec_runPinned o1.tr model o1.store o1.rng [] out hp
    simp [estimate, h1, hr]

/-- Witness for C7 at concrete inputs: against an empty guide trace the
latent site `"z"` triggers `MissingGuideSiteError`, while for `modelM`
against `guideG` (whose trace covers `"z"`) the estimator returns a scalar
loss. -/
theorem C7_witness :
    runPinned [] (.sample "z" dPrior none Prog.ret) [] 0 [] =
      .error .MissingGuideSiteError ∧
    estimate modelM guideG [] 0 =
      .ok (-(logSum [⟨"z", some dPrior, 5, false, .sample⟩,
            ⟨"m", some dMeas, 40, true, .sample⟩] -
          logSum [⟨"z", some dUnit, 5, false, .sample⟩]),
        [⟨"z", some dUnit, 5, false, .sample⟩]) :=
  ⟨C7_missing_guide_site.1 [] "z" dPrior Prog.ret [] 0 [] (by simp [names]) rfl,
   C7_missing_guide_site.2.2 modelM guideG [] 0
     ⟨[⟨"z", some dUnit, 5, false, .sample⟩], [], 1, 5⟩
     ⟨[⟨"z", some dPrior, 5, false, .sample⟩,
       ⟨"m", some dMeas, 40, true, .sample⟩], [], 1, 5⟩
     rfl
     (PExec.latent "z" dPrior 5 _ [] 1 [] _ (by simp [names]) rfl
       (PExec.obs "m" dMeas 40 _ [] 1 _ _ (by simp [names])
         (PExec.ret 5 [] 1 _)))⟩

/-! Helper lemmas for the predictive sampler. -/

theorem runMany_length (model : Prog) :
    ∀ (N : Nat) (st : ParameterStore) (g : Nat) (trs : List Trace)
      (st' : ParameterStore) (g' : Nat),
      runMany model N st g = .ok (trs, st', g') → trs.length = N := by
  intro N
  induction N with
  | zero =>
    intro st g trs st' g' h
    simp only [runMany, Except.ok.injEq, Prod.mk.injEq] at h
    rw [← h.1]
    rfl
  | succ k ih =>
    intro st g trs st' g' h
    cases hr : run model st g [] with
    | error e => simp [runMany, hr] at h
    | ok o =>
      cases hrm : runMany model k o.store o.rng with
      | error e => simp [runMany, hr, hrm] at h
      | ok p =>
        obtain ⟨trs2, st2, g2⟩ := p
        simp only [runMany, hr, hrm, Except.ok.injEq, Prod.mk.injEq] at h
        obtain ⟨h1, _, _⟩ := h
        rw [← h1, List.length_cons, ih o.store o.rng trs2 st2 g2 hrm]

theorem collectVals_length (n : String) :
    ∀ (trs : List Trace),
      (∀ tr ∈ trs, (tr.filter (fun s => s.name == n)).length = 1) →
      (collectVals n trs).length = trs.length := by
  intro trs
  induction trs with
  | nil => intro _; rfl
  | cons tr rest ih =>
    intro h
    have h1 : (tr.filter (fun s => s.name == n)).length = 1 := h tr (by simp)
    have h2 := ih (fun tr' htr' => h tr' (by simp [htr']))
    simp only [collectVals, List.map_cons, List.flatten_cons, List.length_append,
      List.length_map, List.length_cons] at h2 ⊢
    omega

theorem mem_insertName_of_mem {l : List String} {m : String} (n : String)
    (h : m ∈ l) : m ∈ insertName l n := by
  by_cases hn : n ∈ l <;> simp [insertName, hn, h]

theorem mem_insertName_self (l : List String) (n : String) : n ∈ insertName l n := by
  by_cases hn : n ∈ l <;> simp [insertName, hn]

theorem mem_foldl_insertName :
    ∀ (ns acc : List String) (m : String),
      m ∈ acc ∨ m ∈ ns → m ∈ ns.foldl insertName acc := by
  intro ns
  induction ns with
  | nil =>
    intro acc m h
    rcases h with h | h
    · exact h
    · cases h
  | cons x rest ih =>
    intro acc m h
    simp only [List.foldl_cons]
    rcases h with h | h
    · exact ih (insertName acc x) m (Or.inl (mem_insertName_of_mem x h))
    · rcases List.mem_cons.mp h with rfl | h
      · exact ih (insertName acc m) m (Or.inl (mem_insertName_self acc m))
      · exact ih (insertName acc x) m (Or.inr h)

theorem mem_foldl_union :
    ∀ (trs : List Trace) (acc : List String) (m : String),
      (m ∈ acc ∨ ∃ tr ∈ trs, m ∈ names tr) →
      m ∈ trs.foldl (fun acc tr => (names tr).foldl insertName acc) acc := by
  intro trs
  induction trs with
  | nil =>
    intro acc m h
    rcases h with h | ⟨tr, htr, _⟩
    · exact h
    · cases htr
  | cons tr0 rest ih =>
    intro acc m h
    simp only [List.foldl_cons]
    rcases h with h | ⟨tr, htr, hm⟩
    · exact ih _ m (Or.inl (mem_foldl_insertName _ _ m (Or.inl h)))
    · rcases List.mem_cons.mp htr with rfl | htr
      · exact ih _ m (Or.inl (mem_foldl_insertName _ _ m (Or.inr hm)))
      · exact ih _ m (Or.inr ⟨tr, htr, hm⟩)

/-- Counterexample to C8 as stated: the model `mVar` samples site `"b"` only
when the draw at `"a"` is 1, which happens in the first of two runs only; so
`predict` with `num_samples = 2` returns site `"b"` with a single value, not
an ordered sequence of exactly 2 values. -/
theorem C8_counterexample : ¬ claimC8 := by
  intro h
  have h2 := h mVar 2 none [] 0 [("a", [1, 0]), ("b", [7])] (by norm_num) rfl
    ("b", [7]) (by simp)
  simp at h2

/-- C8 (amended): the predictive sampler runs the model `num_samples = N`
times (the collected trace list has length `N`, first conjunct); with
`return_sites = none` it returns one entry per site name observed across the
runs (second and third conjuncts), each entry holding the ordered sequence of
that site's values across the runs in which it appears — exactly `N` values
whenever the site appears exactly once in every run's trace (fourth
conjunct); with explicit `return_sites` it returns exactly the requested
names when each appears in some run (fifth conjunct) and fails with
`UnknownSiteError` when some requested site never appears in any run's trace
(sixth conjunct). -/
theorem C8_predict_sequences (model : Prog) (N : Nat) (st : ParameterStore)
    (g : Nat) (trs : List Trace) (st' : ParameterStore) (g' : Nat)
    (h : runMany model N st g = .ok (trs, st', g')) :
    trs.length = N ∧
    predict model N none st g =
      .ok ((unionNames trs).map (fun n => (n, collectVals n trs))) ∧
    (∀ tr ∈ trs, ∀ s ∈ tr, s.name ∈ unionNames trs) ∧
    (∀ n : String, (∀ tr ∈ trs, (tr.filter (fun s => s.name == n)).length = 1) →
      (collectVals n trs).length = N) ∧
    (∀ req : List String, (∀ n ∈ req, ∃ tr ∈ trs, n ∈ names tr) →
      predict model N (some req) st g =
        .ok (req.map (fun n => (n, collectVals n trs)))) ∧
    (∀ (req : List String) (n : String), n ∈ req → (∀ tr ∈ trs, n ∉ names tr) →
      predict model N (some req) st g = .error .UnknownSiteError) := by
  have hlen := runMany_length model N st g trs st' g' h
  refine ⟨hlen, ?_, ?_, ?_, ?_, ?_⟩
  · simp [predict, h]
  · intro tr htr s hs
    exact mem_foldl_union trs [] s.name
      (Or.inr ⟨tr, htr, List.mem_map_of_mem Site.name hs⟩)
  · intro n hn
    rw [collectVals_length n trs hn]
    exact hlen
  · intro req hreq
    have hall : req.all (fun n => trs.any (fun tr => (names tr).contains n)) = true := by
      rw [List.all_eq_true]
      intro n hn
      rcases hreq n hn with ⟨tr, htr, hmem⟩
      rw [List.any_eq_true]
      exact ⟨tr, htr, by simpa using hmem⟩
    simp only [predict, h]
    rw [if_pos hall]
  · intro req n hn hnone
    have hall : ¬ req.all (fun n => trs.any (fun tr => (names tr).contains n)) = true := by
      rw [List.all_eq_true]
      intro hforall
      have hthis := hforall n hn
      rw [List.any_eq_true] at hthis
      rcases hthis with ⟨tr, htr, hc⟩
      exact hnone tr htr (by simpa using hc)
    simp only [predict, h]
    rw [if_neg hall]

/-- Witness for the amended C8 at concrete inputs: two runs of the one-site
model `mA` give two traces, a site list containing `"a"`, and two collected
values for `"a"`. -/
theorem C8_witness :
    ([trA, trA] : List Trace).length = 2 ∧
    predict mA 2 none [] 0 =
      .ok ((unionNames [trA, trA]).map (fun n => (n, collectVals n [trA, trA]))) ∧
    (collectVals "a" [trA, trA]).length = 2 ∧
    predict mA 2 (some ["a"]) [] 0 =
      .ok (["a"].map (fun n => (n, collectVals n [trA, trA]))) ∧
    predict mA 2 (some ["b"]) [] 0 = .error .UnknownSiteError := by
  obtain ⟨h1, h2, _, h4, h5, h6⟩ :=
    C8_predict_sequences mA 2 [] 0 [trA, trA] [] 2 rfl
  refine ⟨h1, h2, h4 "a" (by decide), h5 ["a"] ?_, h6 ["b"] "b" (by simp) ?_⟩
  · intro n hn
    rw [List.mem_singleton.mp hn]
    exact ⟨trA, by simp, by simp [trA, names]⟩
  · intro tr htr
    rcases List.mem_cons.mp htr with rfl | htr
    · simp [trA, names]
    · rw [List.mem_singleton.mp htr]
      simp [trA, names]

end SVISpec
